import Mathlib

set_option maxRecDepth 8192

/-!
# Verification of the YouTube duration-search pipeline (`src/main.py`)

A shallow embedding of the pipeline in `src/main.py`:
search → fetch durations → filter → sort → print.

Modelling conventions:
* A Python `timedelta` is modelled by its total length in whole seconds,
  as an `Int` (the claims are all at whole-second granularity).
  `timedelta` is kept normalized by Python: `.days = total ⌊/⌋ 86400` and
  `.seconds = total mod 86400 ∈ [0, 86400)`; `Int.emod` has exactly that
  floor-convention for a positive modulus.
* A Python `dict` is modelled by an association list that keeps insertion
  order; `dictInsert` mirrors `d[k] = v` (update in place, append if new).
* Network I/O (`requests.get`) is modelled by making the loop a function of
  the sequence of responses the external API would return, one response per
  issued request.  The model additionally returns the log of requests, so
  that claims about which requests are issued can be stated.  A loop that
  would issue a request beyond the supplied response trace returns `none`.
-/

namespace SpecProof

/-- Seconds in the `timedelta(minutes=4)` threshold. -/
def fourMinutes : Int := 240

/-- Seconds in the `timedelta(minutes=20)` threshold. -/
def twentyMinutes : Int := 1200

/-- `get_video_duration_category` (src/main.py lines 21–33): classify a
duration (total seconds) into the YouTube bucket strings.  Python compares
`timedelta` values by their total length, so the comparison is on total
seconds here. -/
def get_video_duration_category (duration : Int) : String :=
  if duration < fourMinutes then "short"
  else if duration < twentyMinutes then "medium"
  else "long"

/-- `timedelta.seconds`: the time-of-day part of the duration, in
`[0, 86400)`.  Python normalizes `timedelta` with floor division, which for
the positive modulus 86400 agrees with `Int.emod`. -/
def tdSeconds (duration : Int) : Int := duration % 86400

/-- The minutes component computed by `get_yt_search_query`
(`duration.seconds // 60`). -/
def queryMinutes (duration : Int) : Int := tdSeconds duration / 60

/-- The seconds component computed by `get_yt_search_query`
(`duration.seconds % 60`). -/
def querySeconds (duration : Int) : Int := tdSeconds duration % 60

/-- `get_yt_search_query` (src/main.py lines 35–45): build the free-text
search query from the duration. -/
def get_yt_search_query (duration : Int) : String :=
  s!"{queryMinutes duration} minutes {querySeconds duration} seconds"

/-- `filter_videos_by_duration` (src/main.py lines 124–131): keep the dict
entries whose duration equals the target exactly. -/
def filter_videos_by_duration (durations : List (String × Int))
    (target_duration : Int) : List (String × Int) :=
  durations.filter (fun p => p.2 == target_duration)

/-- `num_upper_case` (inner helper of `sort_videos`):
`sum(c.isupper() for c in s)`. -/
def num_upper_case (s : String) : Nat := s.data.countP (fun c => c.isUpper)

/-- `num_digits` (inner helper of `sort_videos`):
`sum(c.isdigit() for c in s)`. -/
def num_digits (s : String) : Nat := s.data.countP (fun c => c.isDigit)

/-- `durations[vid_id]`: dictionary lookup.  In `sort_videos` the looked-up
ids are exactly the keys of the dict, so the default value is never used. -/
def dictGet (durations : List (String × Int)) (vid_id : String) : Int :=
  match durations.find? (fun p => p.1 == vid_id) with
  | some p => p.2
  | none => 0

/-- The sort key of `sort_videos`:
`(num_upper_case(vid_id), num_digits(vid_id), durations[vid_id])`. -/
def sortKey (durations : List (String × Int)) (vid_id : String) :
    Nat × Nat × Int :=
  (num_upper_case vid_id, num_digits vid_id, dictGet durations vid_id)

/-- Python's lexicographic `≤` on the 3-component key tuples. -/
def keyLE (a b : Nat × Nat × Int) : Bool :=
  decide (a.1 < b.1 ∨ (a.1 = b.1 ∧
    (a.2.1 < b.2.1 ∨ (a.2.1 = b.2.1 ∧ a.2.2 ≤ b.2.2))))

/-- `sort_videos` (src/main.py lines 133–153): sort the dict's keys by the
3-component key, ascending.  Python's `sorted` is a stable sort w.r.t. the
key's lexicographic order; any stable sort computes the same list, so the
embedding uses the stable `List.mergeSort`. -/
def sort_videos (durations : List (String × Int)) : List String :=
  (durations.map Prod.fst).mergeSort
    (fun a b => keyLE (sortKey durations a) (sortKey durations b))

theorem keyLE_trans (a b c : Nat × Nat × Int) :
    keyLE a b → keyLE b c → keyLE a c := by
  simp only [keyLE, decide_eq_true_eq]
  omega

theorem keyLE_total (a b : Nat × Nat × Int) : keyLE a b || keyLE b a := by
  simp only [keyLE, Bool.or_eq_true, decide_eq_true_eq]
  omega

/-- `YT_MAX_RES_PER_REQUEST` (src/main.py line 19): per-request batch limit
of the platform. -/
def YT_MAX_RES_PER_REQUEST : Nat := 50

/-- Fuel-driven worker for `chunksOf`; the fuel starts at the list length,
which never runs out while each step removes at least one element. -/
def chunksGo (n : Nat) : Nat → List α → List (List α)
  | _, [] => []
  | 0, _ :: _ => []
  | fuel + 1, x :: xs => (x :: xs).take n :: chunksGo n fuel ((x :: xs).drop n)

/-- The chunk decomposition performed by the loop
`for i in range(0, len(video_ids), n): chunk = video_ids[i:i + n]`
(src/main.py lines 103–104): consecutive slices of length `n` (the last one
possibly shorter). -/
def chunksOf (n : Nat) (l : List α) : List (List α) := chunksGo n l.length l

/-- `durations[vid_id] = duration` on a Python dict: replace the value in
place if the key is present, append the new entry otherwise. -/
def dictInsert (m : List (String × Int)) (k : String) (v : Int) :
    List (String × Int) :=
  if m.any (fun p => p.1 == k) then
    m.map (fun p => if p.1 == k then (k, v) else p)
  else m ++ [(k, v)]

/-- One response of the metadata API to a batch details request
(src/main.py lines 110–120).  A success response carries the parsed
`(id, duration)` pairs of its `items`; the ISO-8601 decoding done by the
external `isodate` library is modelled as part of the response data. -/
inductive DetailsResponse where
  | failure : DetailsResponse
  | success : List (String × Int) → DetailsResponse
  deriving DecidableEq

/-- The chunk loop of `get_video_durations` (src/main.py lines 103–120),
one response consumed per issued batch request.  Returns the log of
requested chunks together with either the accumulated mapping or
`Except.error ()` for the `sys.exit(1)` taken on a non-OK status.
`none` means the loop would need a response beyond the supplied trace. -/
def detailsLoop : List (List String) → List DetailsResponse →
    List (String × Int) →
    Option (List (List String) × Except Unit (List (String × Int)))
  | [], _, durations => some ([], Except.ok durations)
  | chunk :: more, responses, durations =>
    match responses with
    | [] => none
    | r :: rest =>
      match r with
      | .failure => some ([chunk], Except.error ())
      | .success items =>
        match detailsLoop more rest
            (items.foldl (fun m p => dictInsert m p.1 p.2) durations) with
        | none => none
        | some (reqs, out) => some (chunk :: reqs, out)

/-- `get_video_durations` (src/main.py lines 91–122), as a function of the
metadata API's responses. -/
def get_video_durations (responses : List DetailsResponse)
    (video_ids : List String) :
    Option (List (List String) × Except Unit (List (String × Int))) :=
  detailsLoop (chunksOf YT_MAX_RES_PER_REQUEST video_ids) responses []

/-- `max_total` (src/main.py line 54): cap on the total number of search
results. -/
def max_total : Nat := 30

/-- One response of the search API to one GET request
(src/main.py lines 74–84): either a non-OK status, or the list of
`items(id/videoId)` together with the optional `nextPageToken`. -/
inductive SearchResponse where
  | failure : SearchResponse
  | success : List String → Option String → SearchResponse
  deriving DecidableEq

/-- One iteration of the search loop as logged by the model: the state when
the request was issued (`collectedBefore` ids gathered so far, the
`maxResults` parameter sent, the `pageToken` parameter sent) and the
response received. -/
structure SearchStep where
  collectedBefore : Nat
  maxResults : Nat
  pageToken : Option String
  response : SearchResponse
  deriving DecidableEq

/-- The `while` loop of `search_videos_by_length` (src/main.py lines
66–88), as a function of the API's responses (one consumed per issued
request).  Returns the log of iterations and the final id list; `none`
means the loop would need a response beyond the supplied trace (in
particular, an endless retry consumes every finite trace). -/
def searchLoop (responses : List SearchResponse) (video_ids : List String)
    (page_token : Option String) :
    Option (List SearchStep × List String) :=
    if video_ids.length < max_total then
      match responses with
      | [] => none
      | r :: rest =>
        match r with
        | .failure =>
          match searchLoop rest video_ids page_token with
          | none => none
          | some (log, out) =>
            some (⟨video_ids.length,
              min YT_MAX_RES_PER_REQUEST (max_total - video_ids.length),
              page_token, .failure⟩ :: log, out)
        | .success items next =>
          match next with
          | none =>
            some ([⟨video_ids.length,
              min YT_MAX_RES_PER_REQUEST (max_total - video_ids.length),
              page_token, .success items none⟩], video_ids ++ items)
          | some t =>
            match searchLoop rest (video_ids ++ items) (some t) with
            | none => none
            | some (log, out) =>
              some (⟨video_ids.length,
                min YT_MAX_RES_PER_REQUEST (max_total - video_ids.length),
                page_token, .success items (some t)⟩ :: log, out)
    else some ([], video_ids)

/-- `search_videos_by_length` (src/main.py lines 47–89), as a function of
the search API's responses: starts with no ids and no page token. -/
def search_videos_by_length (responses : List SearchResponse) :
    Option (List SearchStep × List String) :=
  searchLoop responses [] none

/-- How one logged search iteration constrains the next: after a failed
request the loop retries with the same state (same page token, nothing
appended); after a successful one it continues only on a present
continuation token, with the returned ids appended. -/
def stepFollows (s s' : SearchStep) : Prop :=
  match s.response with
  | SearchResponse.failure =>
      s'.collectedBefore = s.collectedBefore ∧ s'.pageToken = s.pageToken
  | SearchResponse.success items next =>
      s'.collectedBefore = s.collectedBefore + items.length ∧
      s'.pageToken = next ∧ next ≠ none

/-- Modelled from the spec: the Search Result Cache of the cached variant
of the pipeline (its source is not under `src/`).  The cache is an
in-memory mapping from query string to the ordered list of result ids,
modelled as an insertion-ordered association list like the other dicts. -/
def SearchCache : Type := List (String × List String)

/-- Length prefix of the cache serialization: `n` marker characters then a
separator. -/
def encNat (n : Nat) : List Char := List.replicate n '#' ++ [':']

/-- Reads back an `encNat` prefix. -/
def decNat : List Char → Option (Nat × List Char)
  | [] => none
  | c :: rest =>
    if c = ':' then some (0, rest)
    else if c = '#' then (decNat rest).map (fun p => (p.1 + 1, p.2))
    else none

/-- A string serialized as its length followed by its characters. -/
def encodeStr (s : String) : List Char := encNat s.length ++ s.data

/-- Reads back an `encodeStr` prefix. -/
def decodeStr (cs : List Char) : Option (String × List Char) :=
  match decNat cs with
  | none => none
  | some (n, rest) =>
    if n ≤ rest.length then some (String.mk (rest.take n), rest.drop n)
    else none

/-- A list of strings serialized as a count followed by the elements. -/
def encodeStrList (l : List String) : List Char :=
  encNat l.length ++ (l.map encodeStr).flatten

/-- Reads back `n` serialized strings. -/
def decodeStrListAux : Nat → List Char → Option (List String × List Char)
  | 0, cs => some ([], cs)
  | n + 1, cs =>
    match decodeStr cs with
    | none => none
    | some (s, rest) =>
      match decodeStrListAux n rest with
      | none => none
      | some (l, rest') => some (s :: l, rest')

/-- Reads back an `encodeStrList` prefix. -/
def decodeStrList (cs : List Char) : Option (List String × List Char) :=
  match decNat cs with
  | none => none
  | some (n, rest) => decodeStrListAux n rest

/-- A cache entry serialized as the query followed by the id list. -/
def encodeEntry (e : String × List String) : List Char :=
  encodeStr e.1 ++ encodeStrList e.2

/-- Reads back an `encodeEntry` prefix. -/
def decodeEntry (cs : List Char) :
    Option ((String × List String) × List Char) :=
  match decodeStr cs with
  | none => none
  | some (q, rest) =>
    match decodeStrList rest with
    | none => none
    | some (ids, rest') => some ((q, ids), rest')

/-- Reads back `n` serialized cache entries. -/
def decodeEntriesAux :
    Nat → List Char → Option (List (String × List String) × List Char)
  | 0, cs => some ([], cs)
  | n + 1, cs =>
    match decodeEntry cs with
    | none => none
    | some (e, rest) =>
      match decodeEntriesAux n rest with
      | none => none
      | some (m, rest') => some (e :: m, rest')

/-- Modelled from the spec: persisting the whole cache to the cache file
(the spec leaves the on-disk format implementation-defined, requiring only
that the query→ids mapping round-trips through it; a length-prefixed text
encoding is used here). -/
def saveCache (m : List (String × List String)) : List Char :=
  encNat m.length ++ (m.map encodeEntry).flatten

/-- Modelled from the spec: loading the persisted cache file wholesale at
process start. -/
def loadCache (cs : List Char) : Option (List (String × List String)) :=
  match decNat cs with
  | none => none
  | some (n, rest) =>
    match decodeEntriesAux n rest with
    | none => none
    | some (m, rest') => if rest' = [] then some m else none

/-- Modelled from the spec: the cached variant of
`search_videos_by_length` (its source is not under `src/`).  Before any
request the cache is consulted under the lock; on a hit the cached id list
is returned immediately with no network request issued (the empty request
log); on a miss the uncached search runs and its result is written back to
the cache.  The single-lock discipline serializes cache access, so the
cache is passed and returned as explicit state. -/
def search_videos_by_length_cached (cache : List (String × List String))
    (q : String) (responses : List SearchResponse) :
    Option (List SearchStep × List String × List (String × List String)) :=
  match cache.find? (fun e => e.1 == q) with
  | some e => some ([], e.2, cache)
  | none =>
    match searchLoop responses [] none with
    | none => none
    | some (log, ids) => some (log, ids, cache ++ [(q, ids)])

theorem chunksGo_fuel {n : Nat} (hn : 1 ≤ n) :
    ∀ (fuel₁ fuel₂ : Nat) (l : List α), l.length ≤ fuel₁ →
      l.length ≤ fuel₂ → chunksGo n fuel₁ l = chunksGo n fuel₂ l := by
  intro fuel₁
  induction fuel₁ with
  | zero =>
    intro fuel₂ l h₁ h₂
    match l with
    | [] => cases fuel₂ <;> rfl
    | x :: xs => simp at h₁
  | succ f ih =>
    intro fuel₂ l h₁ h₂
    match l with
    | [] => cases fuel₂ <;> rfl
    | x :: xs =>
      match fuel₂ with
      | 0 => simp at h₂
      | g + 1 =>
        simp only [chunksGo]
        congr 1
        apply ih
        · simp only [List.length_drop, List.length_cons] at *
          omega
        · simp only [List.length_drop, List.length_cons] at *
          omega

theorem chunksOf_cons {n : Nat} (hn : 1 ≤ n) (x : α) (xs : List α) :
    chunksOf n (x :: xs) = (x :: xs).take n :: chunksOf n ((x :: xs).drop n) := by
  simp only [chunksOf, List.length_cons, chunksGo]
  congr 1
  apply chunksGo_fuel hn
  · simp only [List.length_drop, List.length_cons]
    omega
  · exact Nat.le_refl _

theorem chunksOf_flatten {n : Nat} (hn : 1 ≤ n) :
    ∀ (fuel : Nat) (l : List α), l.length ≤ fuel →
      (chunksOf n l).flatten = l := by
  intro fuel
  induction fuel with
  | zero =>
    intro l h
    match l with
    | [] => rfl
    | x :: xs => simp at h
  | succ f ih =>
    intro l h
    match l with
    | [] => rfl
    | x :: xs =>
      rw [chunksOf_cons hn]
      simp only [List.flatten_cons]
      rw [ih ((x :: xs).drop n)
        (by simp only [List.length_drop, List.length_cons] at *; omega)]
      exact List.take_append_drop n (x :: xs)

theorem chunksOf_length_le {n : Nat} (hn : 1 ≤ n) :
    ∀ (fuel : Nat) (l : List α), l.length ≤ fuel →
      ∀ c ∈ chunksOf n l, c.length ≤ n := by
  intro fuel
  induction fuel with
  | zero =>
    intro l h c hc
    match l with
    | [] => simp [chunksOf, chunksGo] at hc
    | x :: xs => simp at h
  | succ f ih =>
    intro l h c hc
    match l with
    | [] => simp [chunksOf, chunksGo] at hc
    | x :: xs =>
      rw [chunksOf_cons hn] at hc
      rcases List.mem_cons.mp hc with h1 | h2
      · subst h1
        simpa using List.length_take_le n (x :: xs)
      · exact ih ((x :: xs).drop n)
          (by simp only [List.length_drop, List.length_cons] at *; omega) c h2

theorem chunksOf_cons_of_ne_nil {n : Nat} (hn : 1 ≤ n) (l : List α)
    (h : l ≠ []) :
    chunksOf n l = l.take n :: chunksOf n (l.drop n) := by
  match l with
  | [] => exact absurd rfl h
  | x :: xs => exact chunksOf_cons hn x xs

theorem dictInsert_fresh (m : List (String × Int)) (k : String) (v : Int)
    (h : k ∉ m.map Prod.fst) : dictInsert m k v = m ++ [(k, v)] := by
  have hany : m.any (fun p => p.1 == k) = false := by
    rw [List.any_eq_false]
    intro p hp
    simp only [beq_iff_eq]
    intro e
    exact h (e ▸ List.mem_map_of_mem Prod.fst hp)
  simp [dictInsert, hany]

theorem map_fst_map_pair (f : String → Int) (c : List String) :
    (c.map (fun id => (id, f id))).map Prod.fst = c := by
  induction c with
  | nil => rfl
  | cons a l ih => simp only [List.map_cons, ih]

theorem foldl_dictInsert_fresh :
    ∀ (items m : List (String × Int)),
      (∀ p ∈ items, p.1 ∉ m.map Prod.fst) →
      (items.map Prod.fst).Nodup →
      items.foldl (fun m p => dictInsert m p.1 p.2) m = m ++ items := by
  intro items
  induction items with
  | nil => simp
  | cons p ps ih =>
    intro m hdisj hnodup
    simp only [List.foldl_cons]
    rw [dictInsert_fresh m p.1 p.2 (hdisj p (List.mem_cons_self p ps))]
    simp only [List.map_cons, List.nodup_cons] at hnodup
    rw [ih (m ++ [(p.1, p.2)]) ?_ hnodup.2]
    · simp
    · intro q hq
      simp only [List.map_append, List.mem_append, List.map_cons,
        List.map_nil, List.mem_singleton]
      rintro (hqm | hqp)
      · exact hdisj q (List.mem_cons_of_mem p hq) hqm
      · exact hnodup.1 (hqp ▸ List.mem_map_of_mem Prod.fst hq)

theorem detailsLoop_all_success (f : String → Int) :
    ∀ (chunks : List (List String)) (acc : List (String × Int)),
      (acc.map Prod.fst ++ chunks.flatten).Nodup →
      detailsLoop chunks
        (chunks.map
          (fun c => DetailsResponse.success (c.map (fun id => (id, f id)))))
        acc =
      some (chunks,
        Except.ok (acc ++ chunks.flatten.map (fun id => (id, f id)))) := by
  intro chunks
  induction chunks with
  | nil =>
    intro acc h
    simp [detailsLoop]
  | cons c more ih =>
    intro acc h
    simp only [List.map_cons, detailsLoop]
    rw [foldl_dictInsert_fresh (c.map (fun id => (id, f id))) acc ?_ ?_]
    · rw [ih (acc ++ c.map (fun id => (id, f id))) ?_]
      · simp [List.map_append]
      · simp only [List.flatten_cons] at h
        rw [List.map_append, map_fst_map_pair f c, List.append_assoc]
        exact h
    · intro p hp
      simp only [List.mem_map] at hp
      obtain ⟨id, hid, rfl⟩ := hp
      simp only [List.flatten_cons, List.nodup_append] at h
      intro hmem
      exact h.2.2 hmem (List.mem_append_left _ hid)
    · rw [map_fst_map_pair f c]
      simp only [List.flatten_cons, List.nodup_append] at h
      exact h.2.1.1

theorem detailsLoop_failure :
    ∀ (pre : List DetailsResponse) (chunks : List (List String))
      (rest : List DetailsResponse) (acc : List (String × Int)),
      pre.length < chunks.length →
      (∀ r ∈ pre, ∃ items, r = DetailsResponse.success items) →
      detailsLoop chunks (pre ++ DetailsResponse.failure :: rest) acc =
        some (chunks.take (pre.length + 1), Except.error ()) := by
  intro pre
  induction pre with
  | nil =>
    intro chunks rest acc hlen hsucc
    match chunks with
    | [] => simp at hlen
    | c :: more => simp [detailsLoop]
  | cons r pre ih =>
    intro chunks rest acc hlen hsucc
    match chunks with
    | [] => simp at hlen
    | c :: more =>
      obtain ⟨items, rfl⟩ := hsucc r (List.mem_cons_self r pre)
      simp only [List.cons_append, detailsLoop]
      rw [ih more rest _
        (by simp only [List.length_cons] at hlen ⊢; omega)
        (fun q hq => hsucc q (List.mem_cons_of_mem _ hq))]
      simp [List.take]

theorem decNat_encNat (n : Nat) (rest : List Char) :
    decNat (encNat n ++ rest) = some (n, rest) := by
  induction n with
  | zero => simp [encNat, decNat]
  | succ m ih =>
    simp only [encNat, List.replicate_succ, List.cons_append, decNat]
    rw [if_neg (by decide)]
    simp only [if_true, List.append_eq, List.append_assoc,
      List.singleton_append]
    have hs : List.replicate m '#' ++ ':' :: rest = encNat m ++ rest := by
      simp [encNat]
    rw [hs, ih]
    rfl

theorem decodeStr_encodeStr (s : String) (rest : List Char) :
    decodeStr (encodeStr s ++ rest) = some (s, rest) := by
  obtain ⟨data⟩ := s
  simp only [encodeStr, List.append_assoc, decodeStr, decNat_encNat]
  have hlen : (String.mk data).length = data.length := rfl
  rw [hlen, if_pos (by simp)]
  rw [List.take_left' rfl, List.drop_left' rfl]

theorem decodeStrListAux_encode (l : List String) (rest : List Char) :
    decodeStrListAux l.length ((l.map encodeStr).flatten ++ rest) =
      some (l, rest) := by
  induction l with
  | nil => simp [decodeStrListAux]
  | cons s t ih =>
    simp only [List.map_cons, List.flatten_cons, List.length_cons,
      List.append_assoc, decodeStrListAux, decodeStr_encodeStr]
    rw [ih]

theorem decodeStrList_encodeStrList (l : List String) (rest : List Char) :
    decodeStrList (encodeStrList l ++ rest) = some (l, rest) := by
  simp only [encodeStrList, List.append_assoc, decodeStrList, decNat_encNat]
  exact decodeStrListAux_encode l rest

theorem decodeEntry_encodeEntry (e : String × List String)
    (rest : List Char) :
    decodeEntry (encodeEntry e ++ rest) = some (e, rest) := by
  simp only [encodeEntry, List.append_assoc, decodeEntry,
    decodeStr_encodeStr, decodeStrList_encodeStrList]

theorem decodeEntriesAux_encode (m : List (String × List String))
    (rest : List Char) :
    decodeEntriesAux m.length ((m.map encodeEntry).flatten ++ rest) =
      some (m, rest) := by
  induction m with
  | nil => simp [decodeEntriesAux]
  | cons e t ih =>
    simp only [List.map_cons, List.flatten_cons, List.length_cons,
      List.append_assoc, decodeEntriesAux, decodeEntry_encodeEntry]
    rw [ih]

theorem loadCache_saveCache (m : List (String × List String)) :
    loadCache (saveCache m) = some m := by
  simp only [saveCache, loadCache, decNat_encNat]
  rw [← List.append_nil ((m.map encodeEntry).flatten), decodeEntriesAux_encode]
  rfl

theorem searchLoop_ne_nil (responses : List SearchResponse)
    (acc : List String) (tok : Option String) (log : List SearchStep)
    (out : List String)
    (h : searchLoop responses acc tok = some (log, out))
    (hlt : acc.length < max_total) : log ≠ [] := by
  rw [searchLoop.eq_def, if_pos hlt] at h
  match responses with
  | [] => exact absurd h (by simp)
  | r :: rest =>
    cases r with
    | failure =>
      simp only [] at h
      cases hrec : searchLoop rest acc tok with
      | none => rw [hrec] at h; exact absurd h (by simp)
      | some p =>
        rw [hrec] at h
        obtain ⟨log', out'⟩ := p
        simp only [Option.some.injEq, Prod.mk.injEq] at h
        obtain ⟨hlog, -⟩ := h
        rw [← hlog]
        simp
    | success items next =>
      cases next with
      | none =>
        simp only [Option.some.injEq, Prod.mk.injEq] at h
        obtain ⟨hlog, -⟩ := h
        rw [← hlog]
        simp
      | some t =>
        simp only [] at h
        cases hrec : searchLoop rest (acc ++ items) (some t) with
        | none => rw [hrec] at h; exact absurd h (by simp)
        | some p =>
          rw [hrec] at h
          obtain ⟨log', out'⟩ := p
          simp only [Option.some.injEq, Prod.mk.injEq] at h
          obtain ⟨hlog, -⟩ := h
          rw [← hlog]
          simp

theorem searchLoop_head (responses : List SearchResponse)
    (acc : List String) (tok : Option String) (log : List SearchStep)
    (out : List String)
    (h : searchLoop responses acc tok = some (log, out)) :
    ∀ s, log.head? = some s →
      s.collectedBefore = acc.length ∧ s.pageToken = tok := by
  rw [searchLoop.eq_def] at h
  split at h
  · match responses with
    | [] => exact absurd h (by simp)
    | r :: rest =>
      cases r with
      | failure =>
        simp only [] at h
        cases hrec : searchLoop rest acc tok with
        | none => rw [hrec] at h; exact absurd h (by simp)
        | some p =>
          rw [hrec] at h
          obtain ⟨log', out'⟩ := p
          simp only [Option.some.injEq, Prod.mk.injEq] at h
          obtain ⟨hlog, -⟩ := h
          intro s hs
          rw [← hlog] at hs
          simp only [List.head?_cons, Option.some.injEq] at hs
          rw [← hs]
          exact ⟨rfl, rfl⟩
      | success items next =>
        cases next with
        | none =>
          simp only [Option.some.injEq, Prod.mk.injEq] at h
          obtain ⟨hlog, -⟩ := h
          intro s hs
          rw [← hlog] at hs
          simp only [List.head?_cons, Option.some.injEq] at hs
          rw [← hs]
          exact ⟨rfl, rfl⟩
        | some t =>
          simp only [] at h
          cases hrec : searchLoop rest (acc ++ items) (some t) with
          | none => rw [hrec] at h; exact absurd h (by simp)
          | some p =>
            rw [hrec] at h
            obtain ⟨log', out'⟩ := p
            simp only [Option.some.injEq, Prod.mk.injEq] at h
            obtain ⟨hlog, -⟩ := h
            intro s hs
            rw [← hlog] at hs
            simp only [List.head?_cons, Option.some.injEq] at hs
            rw [← hs]
            exact ⟨rfl, rfl⟩
  · simp only [Option.some.injEq, Prod.mk.injEq] at h
    obtain ⟨hlog, -⟩ := h
    intro s hs
    rw [← hlog] at hs
    simp at hs

theorem searchLoop_cap :
    ∀ (responses : List SearchResponse) (acc : List String)
      (tok : Option String) (log : List SearchStep) (out : List String),
      searchLoop responses acc tok = some (log, out) →
      acc.length ≤ max_total →
      (∀ step ∈ log, ∀ items next,
        step.response = SearchResponse.success items next →
        items.length ≤ step.maxResults) →
      out.length ≤ max_total := by
  intro responses
  induction responses with
  | nil =>
    intro acc tok log out h hacc hb
    rw [searchLoop.eq_def] at h
    split at h
    · exact absurd h (by simp)
    · simp only [Option.some.injEq, Prod.mk.injEq] at h
      obtain ⟨-, hout⟩ := h
      rw [← hout]
      exact hacc
  | cons r rest ih =>
    intro acc tok log out h hacc hb
    rw [searchLoop.eq_def] at h
    split at h
    case isTrue hlt =>
      cases r with
      | failure =>
        simp only [] at h
        cases hrec : searchLoop rest acc tok with
        | none => rw [hrec] at h; exact absurd h (by simp)
        | some p =>
          rw [hrec] at h
          obtain ⟨log', out'⟩ := p
          simp only [Option.some.injEq, Prod.mk.injEq] at h
          obtain ⟨hlog, rfl⟩ := h
          exact ih acc tok log' _ hrec hacc
            (fun step hs => hb step (by rw [← hlog]; exact List.mem_cons_of_mem _ hs))
      | success items next =>
        cases next with
        | none =>
          simp only [Option.some.injEq, Prod.mk.injEq] at h
          obtain ⟨hlog, hout⟩ := h
          have hstep := hb _ (by rw [← hlog]; exact List.mem_cons_self _ _)
            items none rfl
          simp only at hstep
          rw [← hout]
          simp only [List.length_append]
          unfold max_total YT_MAX_RES_PER_REQUEST at *
          omega
        | some t =>
          simp only [] at h
          cases hrec : searchLoop rest (acc ++ items) (some t) with
          | none => rw [hrec] at h; exact absurd h (by simp)
          | some p =>
            rw [hrec] at h
            obtain ⟨log', out'⟩ := p
            simp only [Option.some.injEq, Prod.mk.injEq] at h
            obtain ⟨hlog, rfl⟩ := h
            have hstep := hb _ (by rw [← hlog]; exact List.mem_cons_self _ _)
              items (some t) rfl
            simp only at hstep
            apply ih (acc ++ items) (some t) log' _ hrec ?_
              (fun step hs => hb step (by rw [← hlog]; exact List.mem_cons_of_mem _ hs))
            simp only [List.length_append]
            unfold max_total YT_MAX_RES_PER_REQUEST at *
            omega
    case isFalse hge =>
      simp only [Option.some.injEq, Prod.mk.injEq] at h
      obtain ⟨-, hout⟩ := h
      rw [← hout]
      exact hacc

theorem searchLoop_pageSize :
    ∀ (responses : List SearchResponse) (acc : List String)
      (tok : Option String) (log : List SearchStep) (out : List String),
      searchLoop responses acc tok = some (log, out) →
      ∀ step ∈ log, step.collectedBefore < max_total ∧
        step.maxResults =
          min YT_MAX_RES_PER_REQUEST (max_total - step.collectedBefore) := by
  intro responses
  induction responses with
  | nil =>
    intro acc tok log out h step hs
    rw [searchLoop.eq_def] at h
    split at h
    · exact absurd h (by simp)
    · simp only [Option.some.injEq, Prod.mk.injEq] at h
      obtain ⟨hlog, -⟩ := h
      rw [← hlog] at hs
      simp at hs
  | cons r rest ih =>
    intro acc tok log out h step hs
    rw [searchLoop.eq_def] at h
    split at h
    case isTrue hlt =>
      cases r with
      | failure =>
        simp only [] at h
        cases hrec : searchLoop rest acc tok with
        | none => rw [hrec] at h; exact absurd h (by simp)
        | some p =>
          rw [hrec] at h
          obtain ⟨log', out'⟩ := p
          simp only [Option.some.injEq, Prod.mk.injEq] at h
          obtain ⟨hlog, -⟩ := h
          rw [← hlog] at hs
          rcases List.mem_cons.mp hs with h1 | h2
          · rw [h1]
            exact ⟨hlt, rfl⟩
          · exact ih acc tok log' out' hrec step h2
      | success items next =>
        cases next with
        | none =>
          simp only [Option.some.injEq, Prod.mk.injEq] at h
          obtain ⟨hlog, -⟩ := h
          rw [← hlog] at hs
          rcases List.mem_cons.mp hs with h1 | h2
          · rw [h1]
            exact ⟨hlt, rfl⟩
          · simp at h2
        | some t =>
          simp only [] at h
          cases hrec : searchLoop rest (acc ++ items) (some t) with
          | none => rw [hrec] at h; exact absurd h (by simp)
          | some p =>
            rw [hrec] at h
            obtain ⟨log', out'⟩ := p
            simp only [Option.some.injEq, Prod.mk.injEq] at h
            obtain ⟨hlog, -⟩ := h
            rw [← hlog] at hs
            rcases List.mem_cons.mp hs with h1 | h2
            · rw [h1]
              exact ⟨hlt, rfl⟩
            · exact ih (acc ++ items) (some t) log' out' hrec step h2
    case isFalse hge =>
      simp only [Option.some.injEq, Prod.mk.injEq] at h
      obtain ⟨hlog, -⟩ := h
      rw [← hlog] at hs
      simp at hs

theorem searchLoop_chain :
    ∀ (responses : List SearchResponse) (acc : List String)
      (tok : Option String) (log : List SearchStep) (out : List String),
      searchLoop responses acc tok = some (log, out) →
      log.Chain' stepFollows := by
  intro responses
  induction responses with
  | nil =>
    intro acc tok log out h
    rw [searchLoop.eq_def] at h
    split at h
    · exact absurd h (by simp)
    · simp only [Option.some.injEq, Prod.mk.injEq] at h
      obtain ⟨hlog, -⟩ := h
      rw [← hlog]
      exact List.chain'_nil
  | cons r rest ih =>
    intro acc tok log out h
    rw [searchLoop.eq_def] at h
    split at h
    case isTrue hlt =>
      cases r with
      | failure =>
        simp only [] at h
        cases hrec : searchLoop rest acc tok with
        | none => rw [hrec] at h; exact absurd h (by simp)
        | some p =>
          rw [hrec] at h
          obtain ⟨log', out'⟩ := p
          simp only [Option.some.injEq, Prod.mk.injEq] at h
          obtain ⟨hlog, -⟩ := h
          rw [← hlog]
          rw [List.chain'_cons']
          refine ⟨?_, ih acc tok log' out' hrec⟩
          intro b hb
          have hh := searchLoop_head rest acc tok log' out' hrec b hb
          unfold stepFollows
          simp only
          exact ⟨hh.1, hh.2⟩
      | success items next =>
        cases next with
        | none =>
          simp only [Option.some.injEq, Prod.mk.injEq] at h
          obtain ⟨hlog, -⟩ := h
          rw [← hlog]
          simp
        | some t =>
          simp only [] at h
          cases hrec : searchLoop rest (acc ++ items) (some t) with
          | none => rw [hrec] at h; exact absurd h (by simp)
          | some p =>
            rw [hrec] at h
            obtain ⟨log', out'⟩ := p
            simp only [Option.some.injEq, Prod.mk.injEq] at h
            obtain ⟨hlog, -⟩ := h
            rw [← hlog]
            rw [List.chain'_cons']
            refine ⟨?_, ih (acc ++ items) (some t) log' out' hrec⟩
            intro b hb
            have hh := searchLoop_head rest (acc ++ items) (some t) log' out' hrec b hb
            unfold stepFollows
            simp only
            refine ⟨?_, hh.2, by simp⟩
            rw [hh.1]
            simp
    case isFalse hge =>
      simp only [Option.some.injEq, Prod.mk.injEq] at h
      obtain ⟨hlog, -⟩ := h
      rw [← hlog]
      exact List.chain'_nil

theorem searchLoop_last :
    ∀ (responses : List SearchResponse) (acc : List String)
      (tok : Option String) (log : List SearchStep) (out : List String),
      searchLoop responses acc tok = some (log, out) →
      ∀ s, log.getLast? = some s → ∀ items next,
        s.response = SearchResponse.success items next →
        next = none ∨ max_total ≤ s.collectedBefore + items.length := by
  intro responses
  induction responses with
  | nil =>
    intro acc tok log out h s hs items next hr
    rw [searchLoop.eq_def] at h
    split at h
    · exact absurd h (by simp)
    · simp only [Option.some.injEq, Prod.mk.injEq] at h
      obtain ⟨hlog, -⟩ := h
      rw [← hlog] at hs
      simp at hs
  | cons r rest ih =>
    intro acc tok log out h s hs items next hr
    rw [searchLoop.eq_def] at h
    split at h
    case isTrue hlt =>
      cases r with
      | failure =>
        simp only [] at h
        cases hrec : searchLoop rest acc tok with
        | none => rw [hrec] at h; exact absurd h (by simp)
        | some p =>
          rw [hrec] at h
          obtain ⟨log', out'⟩ := p
          simp only [Option.some.injEq, Prod.mk.injEq] at h
          obtain ⟨hlog, -⟩ := h
          rw [← hlog] at hs
          have hne : log' ≠ [] := searchLoop_ne_nil rest acc tok log' out' hrec hlt
          match log', hne with
          | b :: log'', _ =>
            rw [List.getLast?_cons_cons] at hs
            exact ih acc tok (b :: log'') out' hrec s hs items next hr
      | success items0 next0 =>
        cases next0 with
        | none =>
          simp only [Option.some.injEq, Prod.mk.injEq] at h
          obtain ⟨hlog, -⟩ := h
          rw [← hlog] at hs
          simp only [List.getLast?_singleton, Option.some.injEq] at hs
          rw [← hs] at hr
          simp only [SearchResponse.success.injEq] at hr
          exact Or.inl hr.2.symm
        | some t =>
          simp only [] at h
          cases hrec : searchLoop rest (acc ++ items0) (some t) with
          | none => rw [hrec] at h; exact absurd h (by simp)
          | some p =>
            rw [hrec] at h
            obtain ⟨log', out'⟩ := p
            simp only [Option.some.injEq, Prod.mk.injEq] at h
            obtain ⟨hlog, -⟩ := h
            rw [← hlog] at hs
            cases hlog' : log' with
            | nil =>
              rw [hlog'] at hs
              simp only [List.getLast?_singleton, Option.some.injEq] at hs
              right
              have hnogo : ¬ (acc ++ items0).length < max_total := by
                intro hcon
                exact searchLoop_ne_nil rest (acc ++ items0) (some t) log' out'
                  hrec hcon hlog'
              rw [← hs] at hr ⊢
              simp only [SearchResponse.success.injEq] at hr
              simp only [List.length_append] at hnogo
              obtain ⟨rfl, -⟩ := hr
              dsimp only
              omega
            | cons b log'' =>
              rw [hlog'] at hs hrec
              rw [List.getLast?_cons_cons] at hs
              exact ih (acc ++ items0) (some t) (b :: log'') out' hrec s hs
                items next hr
    case isFalse hge =>
      simp only [Option.some.injEq, Prod.mk.injEq] at h
      obtain ⟨hlog, -⟩ := h
      rw [← hlog] at hs
      simp at hs

theorem keyLE_antisymm_eq (a b : Nat × Nat × Int)
    (hab : keyLE a b) (hba : keyLE b a) : a = b := by
  obtain ⟨a1, a2, a3⟩ := a
  obtain ⟨b1, b2, b3⟩ := b
  simp only [keyLE, decide_eq_true_eq] at hab hba
  simp only [Prod.mk.injEq]
  omega

end SpecProof

namespace SpecProof

/-- Claim C1 — for every duration, `get_video_duration_category` returns
exactly one of "short"/"medium"/"long", with strict `<` thresholds at
4 minutes (240 s) and 20 minutes (1200 s); in particular 3:59 → short,
4:00 → medium, 19:59 → medium, 20:00 → long. -/
theorem C1_duration_classifier (d : Int) :
    (get_video_duration_category d = "short" ↔ d < 240) ∧
    (get_video_duration_category d = "medium" ↔ 240 ≤ d ∧ d < 1200) ∧
    (get_video_duration_category d = "long" ↔ 1200 ≤ d) ∧
    get_video_duration_category (3 * 60 + 59) = "short" ∧
    get_video_duration_category (4 * 60) = "medium" ∧
    get_video_duration_category (19 * 60 + 59) = "medium" ∧
    get_video_duration_category (20 * 60) = "long" := by
  unfold get_video_duration_category fourMinutes twentyMinutes
  refine ⟨?_, ?_, ?_, by norm_num, by norm_num, by norm_num, by norm_num⟩ <;>
    split_ifs <;> simp_all <;> omega

/-- Claim C2 — `filter_videos_by_duration` is pure and retains exactly the
entries whose duration equals the target: membership in the result is
equivalent to membership in the input together with exact equality of the
duration. -/
theorem C2_filter_exact (durations : List (String × Int)) (target : Int)
    (p : String × Int) :
    p ∈ filter_videos_by_duration durations target ↔
      p ∈ durations ∧ p.2 = target := by
  simp [filter_videos_by_duration]

/-- Claim C9 — the search-query components are derived from
`timedelta.seconds` only: the seconds component is always in `[0, 59]`, the
minutes component in `[0, 1439]`, and the query string is invariant under
shifting the duration by a whole day (86400 s). -/
theorem C9_query_components (d : Int) :
    0 ≤ querySeconds d ∧ querySeconds d ≤ 59 ∧
    0 ≤ queryMinutes d ∧ queryMinutes d ≤ 1439 ∧
    ∀ k : Int, get_yt_search_query (d + 86400 * k) = get_yt_search_query d := by
  have hq : ∀ k : Int, tdSeconds (d + 86400 * k) = tdSeconds d := by
    intro k
    unfold tdSeconds
    omega
  have h0 : 0 ≤ tdSeconds d := Int.emod_nonneg d (by norm_num)
  have h1 : tdSeconds d < 86400 := Int.emod_lt_of_pos d (by norm_num)
  refine ⟨?_, ?_, ?_, ?_, ?_⟩
  · exact Int.emod_nonneg _ (by norm_num)
  · unfold querySeconds; omega
  · unfold queryMinutes; positivity
  · unfold queryMinutes; omega
  · intro k
    unfold get_yt_search_query queryMinutes querySeconds
    rw [hq k]

/-- Claim C3 — `sort_videos` returns the dict's keys sorted ascending by
the lexicographic tuple (uppercase count, digit count, duration), the sort
is stable (equal-key ids keep their original relative order, stated as:
every equal-key pair that is a sublist of the input key list is still a
sublist of the output), and on the concrete keys
[(2,1,60), (0,3,60), (0,3,30)] the order is reversed as specified. -/
theorem C3_sort_videos (durations : List (String × Int)) :
    (sort_videos durations).Perm (durations.map Prod.fst) ∧
    (sort_videos durations).Pairwise
      (fun a b => keyLE (sortKey durations a) (sortKey durations b)) ∧
    (∀ a b : String, sortKey durations a = sortKey durations b →
      List.Sublist [a, b] (durations.map Prod.fst) →
      List.Sublist [a, b] (sort_videos durations)) ∧
    sort_videos [("AB1", 60), ("a123", 60), ("b123", 30)] =
      ["b123", "a123", "AB1"] := by
  refine ⟨List.mergeSort_perm _ _, ?_, ?_, ?_⟩
  · unfold sort_videos
    exact List.sorted_mergeSort
      (fun a b c => keyLE_trans (sortKey durations a) (sortKey durations b)
        (sortKey durations c))
      (fun a b => keyLE_total (sortKey durations a) (sortKey durations b)) _
  · intro a b hk hsub
    refine List.pair_sublist_mergeSort
      (fun a b c => keyLE_trans (sortKey durations a) (sortKey durations b)
        (sortKey durations c))
      (fun a b => keyLE_total (sortKey durations a) (sortKey durations b))
      ?_ hsub
    rw [hk]
    simp [keyLE]
  · simp only [sort_videos, List.map]
    rw [List.mergeSort]
    simp [List.splitInTwo, List.splitAt, List.splitAt.go, List.mergeSort,
      List.merge, keyLE, sortKey, num_upper_case, num_digits, dictGet]

/-- Witness for C3: two ids with identical key tuples keep their original
relative order in the sorted output. -/
theorem C3_sort_videos_witness :
    sortKey [("a1", 5), ("b1", 5)] "a1" = sortKey [("a1", 5), ("b1", 5)] "b1" ∧
    List.Sublist ["a1", "b1"] ([("a1", 5), ("b1", 5)].map Prod.fst) ∧
    List.Sublist ["a1", "b1"] (sort_videos [("a1", 5), ("b1", 5)]) := by
  refine ⟨by decide, by decide, ?_⟩
  exact (C3_sort_videos [("a1", 5), ("b1", 5)]).2.2.1 "a1" "b1"
    (by decide) (by decide)

/-- Claim C4 — `get_video_durations` partitions the identifier list into
consecutive chunks of at most 50 (= `YT_MAX_RES_PER_REQUEST`), issues
exactly one batch request per chunk, and (when every request succeeds and
returns its chunk's entries) merges everything into a single mapping.  For
120 distinct identifiers exactly 3 requests are issued, of sizes 50, 50
and 20, and the merged mapping has all 120 entries. -/
theorem C4_duration_lookup_chunking (ids : List String) (f : String → Int)
    (hnd : ids.Nodup) :
    YT_MAX_RES_PER_REQUEST = 50 ∧
    (chunksOf YT_MAX_RES_PER_REQUEST ids).flatten = ids ∧
    (∀ c ∈ chunksOf YT_MAX_RES_PER_REQUEST ids, c.length ≤ 50) ∧
    get_video_durations
        ((chunksOf YT_MAX_RES_PER_REQUEST ids).map
          (fun c => DetailsResponse.success (c.map (fun id => (id, f id)))))
        ids =
      some (chunksOf YT_MAX_RES_PER_REQUEST ids,
        Except.ok (ids.map (fun id => (id, f id)))) ∧
    (ids.length = 120 →
      (chunksOf YT_MAX_RES_PER_REQUEST ids).length = 3 ∧
      (chunksOf YT_MAX_RES_PER_REQUEST ids).map List.length = [50, 50, 20]) := by
  have h50 : (1 : Nat) ≤ YT_MAX_RES_PER_REQUEST := by norm_num [YT_MAX_RES_PER_REQUEST]
  have hflat : (chunksOf YT_MAX_RES_PER_REQUEST ids).flatten = ids :=
    chunksOf_flatten h50 ids.length ids (Nat.le_refl _)
  refine ⟨rfl, hflat, ?_, ?_, ?_⟩
  · intro c hc
    exact chunksOf_length_le h50 ids.length ids (Nat.le_refl _) c hc
  · unfold get_video_durations
    rw [detailsLoop_all_success f (chunksOf YT_MAX_RES_PER_REQUEST ids) []
      (by simpa [hflat] using hnd)]
    rw [hflat]
    simp
  · intro h120
    have h1 : ids ≠ [] := by
      intro e
      rw [e] at h120
      simp at h120
    have e1 : chunksOf YT_MAX_RES_PER_REQUEST ids =
        ids.take 50 :: chunksOf 50 (ids.drop 50) :=
      chunksOf_cons_of_ne_nil h50 ids h1
    have h2 : ids.drop 50 ≠ [] := by
      intro e
      have := congrArg List.length e
      simp [h120] at this
    have e2 : chunksOf 50 (ids.drop 50) =
        (ids.drop 50).take 50 :: chunksOf 50 ((ids.drop 50).drop 50) :=
      chunksOf_cons_of_ne_nil (by norm_num) (ids.drop 50) h2
    have h3 : (ids.drop 50).drop 50 ≠ [] := by
      intro e
      have := congrArg List.length e
      simp [h120] at this
    have e3 : chunksOf 50 ((ids.drop 50).drop 50) =
        ((ids.drop 50).drop 50).take 50 ::
          chunksOf 50 (((ids.drop 50).drop 50).drop 50) :=
      chunksOf_cons_of_ne_nil (by norm_num) _ h3
    have h4 : ((ids.drop 50).drop 50).drop 50 = [] := by
      apply List.eq_nil_of_length_eq_zero
      simp [h120]
    rw [e1, e2, e3, h4]
    rw [show chunksOf 50 ([] : List String) = [] from rfl]
    refine ⟨rfl, ?_⟩
    simp [List.length_take, List.length_drop, h120]

/-- Witness for C4: 120 distinct one-character identifiers — the chunk
decomposition has exactly 3 chunks, of sizes 50, 50 and 20. -/
theorem C4_duration_lookup_chunking_witness :
    ((List.range 120).map (fun i => String.mk [Char.ofNat (65 + i)])).Nodup ∧
    ((List.range 120).map (fun i => String.mk [Char.ofNat (65 + i)])).length
        = 120 ∧
    (chunksOf YT_MAX_RES_PER_REQUEST
        ((List.range 120).map (fun i => String.mk [Char.ofNat (65 + i)]))).length
        = 3 ∧
    (chunksOf YT_MAX_RES_PER_REQUEST
        ((List.range 120).map (fun i => String.mk [Char.ofNat (65 + i)]))).map
        List.length = [50, 50, 20] := by
  have hnd :
      ((List.range 120).map (fun i => String.mk [Char.ofNat (65 + i)])).Nodup := by
    decide
  have hlen :
      ((List.range 120).map (fun i => String.mk [Char.ofNat (65 + i)])).length
        = 120 := by decide
  have h := (C4_duration_lookup_chunking
    ((List.range 120).map (fun i => String.mk [Char.ofNat (65 + i)]))
    (fun _ => 0) hnd).2.2.2.2 hlen
  exact ⟨hnd, hlen, h.1, h.2⟩

/-- Claim C8 — on a non-success status during a duration-lookup batch
request, the pipeline terminates immediately via `sys.exit(1)`: whatever
prefix of batch requests succeeded before, the result is the error exit
(never a partial mapping), the failing chunk is not retried, and no request
past the failing chunk is issued — the request log is exactly the first
`k + 1` chunks when the failure hits the `(k+1)`-st request. -/
theorem C8_lookup_fail_fast (ids : List String)
    (pre rest : List DetailsResponse)
    (hlen : pre.length < (chunksOf YT_MAX_RES_PER_REQUEST ids).length)
    (hsucc : ∀ r ∈ pre, ∃ items, r = DetailsResponse.success items) :
    get_video_durations (pre ++ DetailsResponse.failure :: rest) ids =
      some ((chunksOf YT_MAX_RES_PER_REQUEST ids).take (pre.length + 1),
        Except.error ()) :=
  detailsLoop_failure pre (chunksOf YT_MAX_RES_PER_REQUEST ids) rest []
    hlen hsucc

/-- Witness for C8: one identifier, first (and only) batch request fails —
the pipeline exits with no mapping after exactly that one request. -/
theorem C8_lookup_fail_fast_witness :
    get_video_durations [DetailsResponse.failure] ["a"] =
      some ([["a"]], Except.error ()) := by
  have h := C8_lookup_fail_fast ["a"] [] [] (by decide)
    (by intro r hr; simp at hr)
  simpa using h

/-- Claim C5 — the cached search client consults the cache before any
request and on a hit returns the cached identifier list with no network
I/O (empty request log, cache unchanged); and the cache round-trips:
persisting any query→ids mapping and reloading it yields the identical
mapping, so in the spec's scenario (cache `{"5 minutes 0 seconds":
["abc123"]}`) the reloaded cache serves the query as a hit with no network
request. -/
theorem C5_cache (cache : List (String × List String)) (q : String)
    (e : String × List String) (responses : List SearchResponse)
    (hhit : cache.find? (fun p => p.1 == q) = some e) :
    search_videos_by_length_cached cache q responses = some ([], e.2, cache) ∧
    (∀ m : List (String × List String), loadCache (saveCache m) = some m) ∧
    loadCache (saveCache [("5 minutes 0 seconds", ["abc123"])]) =
      some [("5 minutes 0 seconds", ["abc123"])] ∧
    search_videos_by_length_cached [("5 minutes 0 seconds", ["abc123"])]
        "5 minutes 0 seconds" [] =
      some ([], ["abc123"], [("5 minutes 0 seconds", ["abc123"])]) := by
  refine ⟨?_, loadCache_saveCache, loadCache_saveCache _, by decide⟩
  unfold search_videos_by_length_cached
  rw [hhit]

/-- Witness for C5: the spec's scenario cache serves its query as a hit
with no request issued. -/
theorem C5_cache_witness :
    [("5 minutes 0 seconds", ["abc123"])].find?
        (fun p => p.1 == "5 minutes 0 seconds") =
      some ("5 minutes 0 seconds", ["abc123"]) ∧
    search_videos_by_length_cached [("5 minutes 0 seconds", ["abc123"])]
        "5 minutes 0 seconds" [] =
      some ([], ["abc123"], [("5 minutes 0 seconds", ["abc123"])]) := by
  refine ⟨by decide, ?_⟩
  exact (C5_cache [("5 minutes 0 seconds", ["abc123"])]
    "5 minutes 0 seconds" ("5 minutes 0 seconds", ["abc123"]) []
    (by decide)).1

/-- Claim C6 — for every terminating run of the search loop: the result
has at most `max_total` (30) identifiers provided each response carries no
more items than its request's page size; every issued request asks for a
page size of `min(50, 30 - collected)` and is issued only while fewer than
30 ids are collected; consecutive iterations chain as the loop prescribes
(failure: state unchanged; success: ids appended, next token present); and
the run only ends after a success response when its token is absent or the
collected total has reached 30. -/
theorem C6_search_pagination (responses : List SearchResponse)
    (log : List SearchStep) (out : List String)
    (h : search_videos_by_length responses = some (log, out)) :
    ((∀ step ∈ log, ∀ items next,
        step.response = SearchResponse.success items next →
        items.length ≤ step.maxResults) →
      out.length ≤ max_total) ∧
    (∀ step ∈ log, step.collectedBefore < max_total ∧
      step.maxResults =
        min YT_MAX_RES_PER_REQUEST (max_total - step.collectedBefore)) ∧
    log.Chain' stepFollows ∧
    (∀ s, log.getLast? = some s → ∀ items next,
      s.response = SearchResponse.success items next →
      next = none ∨ max_total ≤ s.collectedBefore + items.length) := by
  refine ⟨?_, ?_, ?_, ?_⟩
  · intro hb
    exact searchLoop_cap responses [] none log out h
      (by simp [max_total]) hb
  · exact searchLoop_pageSize responses [] none log out h
  · exact searchLoop_chain responses [] none log out h
  · exact searchLoop_last responses [] none log out h

/-- Witness for C6: a two-page run — first page returns two ids and a
continuation token, second returns one id and no token; the loop stops with
3 ≤ 30 ids after two requests of page sizes 30 and 28. -/
theorem C6_search_pagination_witness :
    search_videos_by_length
        [SearchResponse.success ["a", "b"] (some "T"),
         SearchResponse.success ["c"] none] =
      some ([⟨0, 30, none, SearchResponse.success ["a", "b"] (some "T")⟩,
             ⟨2, 28, some "T", SearchResponse.success ["c"] none⟩],
            ["a", "b", "c"]) ∧
    (["a", "b", "c"] : List String).length ≤ max_total := by
  refine ⟨by decide, ?_⟩
  apply (C6_search_pagination
    [SearchResponse.success ["a", "b"] (some "T"),
     SearchResponse.success ["c"] none]
    [⟨0, 30, none, SearchResponse.success ["a", "b"] (some "T")⟩,
     ⟨2, 28, some "T", SearchResponse.success ["c"] none⟩]
    ["a", "b", "c"] (by decide)).1
  intro step hs items next heq
  rcases List.mem_cons.mp hs with rfl | hs'
  · injection heq with h1 h2
    subst h1
    decide
  · rcases List.mem_cons.mp hs' with rfl | hs''
    · injection heq with h1 h2
      subst h1
      decide
    · simp at hs''

theorem searchLoop_replicate_failure :
    ∀ (n : Nat) (acc : List String) (tok : Option String),
      acc.length < max_total →
      searchLoop (List.replicate n SearchResponse.failure) acc tok = none := by
  intro n
  induction n with
  | zero =>
    intro acc tok h
    rw [List.replicate_zero, searchLoop.eq_def, if_pos h]
  | succ m ih =>
    intro acc tok h
    rw [List.replicate_succ, searchLoop.eq_def, if_pos h]
    simp only []
    rw [ih acc tok h]

/-- Claim C7 — on a non-success search response the loop appends nothing
and retries the same page: the run on `failure :: rest` equals the run on
`rest` from the *same* state (same collected ids, same page token), with
one more logged request carrying that same token; and under persistent
failure the loop never terminates — every finite all-failure trace is
exhausted without producing a result. -/
theorem C7_search_retry (rest : List SearchResponse) (acc : List String)
    (tok : Option String) (h : acc.length < max_total) :
    searchLoop (SearchResponse.failure :: rest) acc tok =
      (searchLoop rest acc tok).map
        (fun p => (⟨acc.length,
          min YT_MAX_RES_PER_REQUEST (max_total - acc.length), tok,
          SearchResponse.failure⟩ :: p.1, p.2)) ∧
    (∀ n : Nat,
      search_videos_by_length (List.replicate n SearchResponse.failure) =
        none) := by
  constructor
  · rw [searchLoop.eq_def, if_pos h]
    simp only []
    cases searchLoop rest acc tok with
    | none => rfl
    | some p =>
      obtain ⟨log, out⟩ := p
      rfl
  · intro n
    exact searchLoop_replicate_failure n [] none (by simp [max_total])

/-- Witness for C7: from the initial state, a failing request leaves the
state unchanged, and a trace of only failures produces no result. -/
theorem C7_search_retry_witness :
    ([] : List String).length < max_total ∧
    searchLoop [SearchResponse.failure] [] none = none := by
  refine ⟨by decide, ?_⟩
  rw [(C7_search_retry [] [] none (by decide)).1]
  decide

/-- Claim C10 — `get_video_durations` on an empty identifier list returns
the empty mapping and issues no batch request at all, whatever the API
would have answered. -/
theorem C10_empty_ids (responses : List DetailsResponse) :
    get_video_durations responses [] = some ([], Except.ok []) := rfl

end SpecProof
